import Mathlib

/-!
Verification of `tools/verify_page_descriptions.py` (Lumina-Sheets).

The Python tool is embedded shallowly: strings are `List Char`, the regular
expressions of the source are translated into explicit deterministic scanning
functions (each regex used by the tool matches deterministically, so no
backtracking search is needed), Python dicts become association lists with
last-wins insertion, and the fallible loader returns `Except`.  Character
classes (`[^A-Za-z0-9]`, `\s`, `\w`, `str.lower`, `str.strip`) are modelled
over their ASCII meaning, which is the range the tool's own data uses.
-/

namespace VerifyPages

/-- Strings of the tool are modelled as lists of characters. -/
abbrev Str := List Char

/-- Single-quote character (written by code point to keep source plain). -/
def sq : Char := Char.ofNat 39

/-- Double-quote character. -/
def dq : Char := Char.ofNat 34

/-- Opening curly brace. -/
def lbr : Char := Char.ofNat 123

/-- Closing curly brace. -/
def rbr : Char := Char.ofNat 125

/-- ASCII whitespace recognised by Python `str.strip()` and the regex class
`\s`: space, tab, newline, vertical tab, form feed, carriage return. -/
def isPySpace (c : Char) : Bool :=
  c.toNat == 32 || (9 ≤ c.toNat && c.toNat ≤ 13)

/-- Character class `[A-Za-z0-9]` of the first substitution in `slugify`. -/
def isAlnumA (c : Char) : Bool :=
  (65 ≤ c.toNat && c.toNat ≤ 90) || (97 ≤ c.toNat && c.toNat ≤ 122) ||
    (48 ≤ c.toNat && c.toNat ≤ 57)

/-- Lower-case letters and digits, the character set of finished slugs. -/
def isLowerAlnum (c : Char) : Bool :=
  (97 ≤ c.toNat && c.toNat ≤ 122) || (48 ≤ c.toNat && c.toNat ≤ 57)

/-- ASCII model of Python `str.lower` applied characterwise. -/
def pyLower (c : Char) : Char :=
  if 65 ≤ c.toNat && c.toNat ≤ 90 then Char.ofNat (c.toNat + 32) else c

/-- Drop matching characters from the end of a list; together with
`List.dropWhile` this models Python `str.strip` / `str.strip("-")`. -/
def dropTrailing (p : Char → Bool) : Str → Str
  | [] => []
  | c :: rest =>
    let r := dropTrailing p rest
    if r.isEmpty && p c then [] else c :: r

/-- Python `value.strip()` (ASCII whitespace model). -/
def pyStrip (l : Str) : Str :=
  dropTrailing isPySpace (l.dropWhile isPySpace)

/-- Replacement pass of `re.sub(r"[^A-Za-z0-9]+", "-", v)`: each maximal run
of characters outside `[A-Za-z0-9]` becomes one hyphen.  The boolean state
records whether the previous character was part of such a run. -/
def subRunsAux : Bool → Str → Str
  | _, [] => []
  | prevRun, c :: rest =>
    if isAlnumA c then c :: subRunsAux false rest
    else if prevRun then subRunsAux true rest
    else Char.ofNat 45 :: subRunsAux true rest

/-- `re.sub(r"[^A-Za-z0-9]+", "-", v)`. -/
def subRuns (l : Str) : Str := subRunsAux false l

/-- Replacement pass of `re.sub(r"-+", "-", v)`: collapse hyphen runs. -/
def collapseAux : Bool → Str → Str
  | _, [] => []
  | prevDash, c :: rest =>
    if c == Char.ofNat 45 then
      if prevDash then collapseAux true rest
      else c :: collapseAux true rest
    else c :: collapseAux false rest

/-- `re.sub(r"-+", "-", v)`. -/
def collapseDashes (l : Str) : Str := collapseAux false l

/-- Python `v.strip("-")`. -/
def stripDashes (l : Str) : Str :=
  dropTrailing (fun c => c == Char.ofNat 45) (l.dropWhile (fun c => c == Char.ofNat 45))

/-- Embedding of `slugify` from the source:
`value = re.sub(r"[^A-Za-z0-9]+", "-", value.strip().lower())` followed by
`value = re.sub(r"-+", "-", value).strip("-")`. -/
def slugify (value : Str) : Str :=
  stripDashes (collapseDashes (subRuns ((pyStrip value).map pyLower)))

/-- Continuation of the pattern `^[a-z0-9]+(-[a-z0-9]+)*$` after its first
character: hyphens must be followed by a lower-case alphanumeric character,
and the string must not end in a hyphen. -/
def slugPatTail : Str → Bool
  | [] => true
  | c :: rest =>
    if c == Char.ofNat 45 then
      match rest with
      | [] => false
      | d :: _ => isLowerAlnum d && slugPatTail rest
    else isLowerAlnum c && slugPatTail rest

/-- Recogniser for the specification pattern `^[a-z0-9]+(-[a-z0-9]+)*$`,
extended (as the specification says) to accept the empty string. -/
def matchesSlugPat : Str → Bool
  | [] => true
  | c :: rest => isLowerAlnum c && slugPatTail rest

/-! ### Substring scanning

`splitOnFirst pat l` returns the suffix of `l` after the first occurrence of
`pat`, scanning candidate start positions left to right, as `re.search` does
for a literal pattern; `takeUntilFirst pat l` returns the part of `l` before
the first occurrence of `pat`, which models a lazy capture `([\s\S]*?)`
followed by the literal `pat`. -/

/-- Suffix after the first occurrence of `pat`, if `pat` occurs in `l`. -/
def splitOnFirst (pat : Str) : Str → Option Str
  | [] => if pat.isEmpty then some [] else none
  | c :: rest =>
    if (c :: rest).take pat.length == pat then some ((c :: rest).drop pat.length)
    else splitOnFirst pat rest

/-- Python `pat in l` (substring containment). -/
def containsSub (pat l : Str) : Bool := (splitOnFirst pat l).isSome

/-- Prefix of `l` before the first occurrence of `pat`, if `pat` occurs. -/
def takeUntilFirst (pat : Str) : Str → Option Str
  | [] => none
  | c :: rest =>
    if (c :: rest).take pat.length == pat then some []
    else (takeUntilFirst pat rest).map (fun s => c :: s)

/-- Expect the literal `pat` at the head of the input, returning the rest. -/
def expectLit (pat l : Str) : Option Str :=
  if l.take pat.length == pat then some (l.drop pat.length) else none

/-- Expect one specific character at the head of the input. -/
def expectChar (c : Char) : Str → Option Str
  | d :: rest => if d == c then some rest else none
  | [] => none

/-! ### Association-list model of Python dicts -/

/-- Python dict assignment `d[k] = v`: replace in place when the key exists
(its position is kept), otherwise append. -/
def dictInsert (d : List (Str × Str)) (k v : Str) : List (Str × Str) :=
  if d.any (fun p => p.1 == k) then
    d.map (fun p => if p.1 == k then (k, v) else p)
  else d ++ [(k, v)]

/-- Python `k in d` for a dict modelled as an association list. -/
def containsKey (d : List (Str × Str)) (k : Str) : Bool :=
  d.any (fun p => p.1 == k)

/-- Python `d[k]` (as an `Option`). -/
def getValue (d : List (Str × Str)) (k : Str) : Option Str :=
  (d.find? (fun p => p.1 == k)).map (fun p => p.2)

/-- Python `dict(pairs)`: first occurrence fixes the position of a key, the
last assignment fixes its value. -/
def dictOf (pairs : List (Str × Str)) : List (Str × Str) :=
  pairs.foldl (fun d p => dictInsert d p.1 p.2) []

/-! ### Lookup loader (`read_layout_lookup`) -/

/-- Literal prefix of the marker regex
`var __layoutPageDescriptionEntries = \{([\s\S]*?)\};`. -/
def markerLit : Str := "var __layoutPageDescriptionEntries = \x7b".toList

/-- Closing delimiter of the entries block. -/
def closeEntriesLit : Str := "\x7d;".toList

/-- Capture group of the marker regex: the text between the first occurrence
of the marker and the first `};` after it. -/
def findEntriesBlock (layoutText : Str) : Option Str :=
  (splitOnFirst markerLit layoutText).bind (takeUntilFirst closeEntriesLit)

/-- One match of `'([^']+)':\s*'([^']+)'` anchored at the current position:
quoted nonempty key, colon, optional whitespace, quoted nonempty value.
Returns the pair and the input remaining after the match.  (Each quantifier
of that regex matches deterministically, since `[^']` excludes the quote and
`\s` cannot match the quote.) -/
def parseEntry (l : Str) : Option ((Str × Str) × Str) := do
  let r0 ← expectChar sq l
  let k := r0.takeWhile (fun d => d != sq)
  let r1 ← expectChar sq (r0.dropWhile (fun d => d != sq))
  if k.isEmpty then none else
  let r2 ← expectChar (Char.ofNat 58) r1
  let r3 ← expectChar sq (r2.dropWhile isPySpace)
  let v := r3.takeWhile (fun d => d != sq)
  let r4 ← expectChar sq (r3.dropWhile (fun d => d != sq))
  if v.isEmpty then none else
  pure ((k, v), r4)

/-- Scanning loop of `re.findall`: try a match at every position, emitting
matches left to right without overlap.  A successful match always consumes at
least one character, so `l.length` steps of fuel always suffice. -/
def findAllEntriesFuel : Nat → Str → List (Str × Str)
  | 0, _ => []
  | _ + 1, [] => []
  | n + 1, c :: rest =>
    match parseEntry (c :: rest) with
    | some (kv, r) => kv :: findAllEntriesFuel n r
    | none => findAllEntriesFuel n rest

/-- `re.findall(r"'([^']+)':\s*'([^']+)'", block)`. -/
def findAllEntries (l : Str) : List (Str × Str) := findAllEntriesFuel l.length l

/-- `entries = dict(re.findall(...))` applied to the captured block. -/
def entriesOf (block : Str) : List (Str × Str) := dictOf (findAllEntries block)

/-- Loop body of `read_layout_lookup`: skip falsy descriptions, register the
primary key, then register the hyphen-stripped alias under its guards. -/
def processEntry (entriesAll : List (Str × Str)) (lookup : List (Str × Str))
    (kv : Str × Str) : List (Str × Str) :=
  if kv.2.isEmpty then lookup
  else
    let l1 := dictInsert lookup kv.1 kv.2
    let collapsed := kv.1.filter (fun c => c != Char.ofNat 45)
    if !collapsed.isEmpty && collapsed != kv.1 &&
        !containsKey entriesAll collapsed && !containsKey l1 collapsed then
      dictInsert l1 collapsed kv.2
    else l1

/-- The `for key, description in entries.items()` loop of the loader. -/
def buildLookup (entriesAll : List (Str × Str)) : List (Str × Str) :=
  entriesAll.foldl (processEntry entriesAll) []

/-- Message of the `RuntimeError` raised when the marker is missing. -/
def markerError : Str :=
  "Could not locate __layoutPageDescriptionEntries in layout.html".toList

/-- Embedding of `read_layout_lookup`, as a function of the text of
`layout.html`: extract the entries block (a fatal error when the marker is
absent), parse its quoted pairs into a dict and build the lookup with
aliases. -/
def read_layout_lookup (layoutText : Str) : Except Str (List (Str × Str)) :=
  match findEntriesBlock layoutText with
  | none => Except.error markerError
  | some block => Except.ok (buildLookup (entriesOf block))

/-! ### Page scanner (`iter_layout_pages`) -/

/-- Regex class `\w` (ASCII model): letters, digits, underscore. -/
def isWordChar (c : Char) : Bool := isAlnumA c || c == Char.ofNat 95

/-- Value characters of the property pattern: anything but `,` and newline. -/
def isValChar (c : Char) : Bool := !(c == Char.ofNat 44 || c == Char.ofNat 10)

/-- Backtracking tail of the property pattern: when the character after the
greedy `\s*` run cannot start `([^,\n]+)`, the regex engine gives back
whitespace until the value can begin.  The value then starts at the last
non-newline character of the whitespace run and, being followed only by
newlines and the rejected character, consists of that single character. -/
def backtrackValue (key w rest0 : Str) : Option ((Str × Str) × Str) :=
  let wr := w.reverse
  match wr.dropWhile (fun c => c == Char.ofNat 10) with
  | [] => none
  | c :: _ => some ((key, [c]), (wr.takeWhile (fun c => c == Char.ofNat 10)).reverse ++ rest0)

/-- One match of the property pattern `(\w+)\s*:\s*([^,\n]+)` anchored at the
current position, returning captured key and raw value plus the remaining
input. -/
def matchPropAt (l : Str) : Option ((Str × Str) × Str) :=
  let key := l.takeWhile isWordChar
  if key.isEmpty then none
  else
    match expectChar (Char.ofNat 58) ((l.dropWhile isWordChar).dropWhile isPySpace) with
    | none => none
    | some r3 =>
      let w := r3.takeWhile isPySpace
      match r3.dropWhile isPySpace with
      | [] => backtrackValue key w []
      | c :: r =>
        if c == Char.ofNat 44 then backtrackValue key w (c :: r)
        else some ((key, (c :: r).takeWhile isValChar), (c :: r).dropWhile isValChar)

/-- Scanning loop of `re.findall(r"(\w+)\s*:\s*([^,\n]+)", block)`; as for the
entries pattern, a match consumes at least one character, so length fuel
suffices. -/
def findPropsFuel : Nat → Str → List (Str × Str)
  | 0, _ => []
  | _ + 1, [] => []
  | n + 1, c :: rest =>
    match matchPropAt (c :: rest) with
    | some (kv, r) => kv :: findPropsFuel n r
    | none => findPropsFuel n rest

/-- All property matches of a block, left to right. -/
def findProps (l : Str) : List (Str × Str) := findPropsFuel l.length l

/-- The fallback-operator literal `||`. -/
def ddLit : Str := "||".toList

/-- Python `value.split("||")[1]`: the segment between the first and second
occurrences of `||` (to the end when `||` occurs only once).  Only evaluated
under the guard `"||" in value`, mirroring the source. -/
def splitSecond (v : Str) : Str :=
  match splitOnFirst ddLit v with
  | none => v
  | some rest =>
    match takeUntilFirst ddLit rest with
    | none => rest
    | some seg => seg

/-- `re.sub(r"['\"()]", "", value)`: drop quotes and parentheses. -/
def stripQuotesParens (v : Str) : Str :=
  v.filter (fun c => !(c == sq || c == dq || c == Char.ofNat 40 || c == Char.ofNat 41))

/-- Body of the slug-resolution loop for one present property value: apply
the `||` fallback split, strip quotes and parentheses, trim whitespace. -/
def cleanValue (v : Str) : Str :=
  pyStrip (stripQuotesParens (if containsSub ddLit v then splitSecond v else v))

/-- Property keys tried by the loop, in priority order. -/
def pageSlugKey : Str := "pageSlug".toList

/-- Second key tried by the slug-resolution loop. -/
def currentPageKey : Str := "currentPage".toList

/-- The slug-resolution loop of `iter_layout_pages`: first key present whose
cleaned value is nonempty wins; otherwise the file-name base is used. -/
def slugCandidate (props : List (Str × Str)) (base : Str) : Str :=
  let c1 := match getValue props pageSlugKey with
    | some v => cleanValue v
    | none => []
  if !c1.isEmpty then c1
  else
    let c2 := match getValue props currentPageKey with
      | some v => cleanValue v
      | none => []
    if !c2.isEmpty then c2 else base

/-- Python `os.path.splitext(filename)[0]` for a bare file name: cut at the
last dot, except when every character before that dot is itself a dot. -/
def splitextBase (p : Str) : Str :=
  let revAfter := p.reverse.takeWhile (fun c => c != Char.ofNat 46)
  if revAfter.length == p.length then p
  else
    let base := p.take (p.length - revAfter.length - 1)
    if base.any (fun c => c != Char.ofNat 46) then base else p

/-- Literal prefix of the include regex
`include\((?:'|\")layout(?:'|\")\s*,\s*\{([\s\S]*?)\}\)`. -/
def incLit : Str := "include(".toList

/-- The quoted template name expected by the include regex. -/
def layoutLit : Str := "layout".toList

/-- Closing delimiter `})` of the include regex. -/
def closeParenLit : Str := "\x7d)".toList

/-- The literal whose presence in a block sets `has_inline_description`. -/
def descLit : Str := "pageDescription".toList

/-- Either quote accepted by `(?:'|\")`. -/
def expectQuoteEither : Str → Option Str
  | c :: rest => if c == sq || c == dq then some rest else none
  | [] => none

/-- One match of the include regex anchored at the current position,
returning the captured property block (the lazy `([\s\S]*?)` stops at the
first `})`). -/
def matchIncludeAt (l : Str) : Option Str := do
  let r1 ← expectLit incLit l
  let r2 ← expectQuoteEither r1
  let r3 ← expectLit layoutLit r2
  let r4 ← expectQuoteEither r3
  let r5 ← expectChar (Char.ofNat 44) (r4.dropWhile isPySpace)
  let r6 ← expectChar lbr (r5.dropWhile isPySpace)
  takeUntilFirst closeParenLit r6

/-- `include_pattern.search(text)`: the first position at which the include
regex matches, scanning left to right. -/
def findInclude : Str → Option Str
  | [] => none
  | c :: rest =>
    match matchIncludeAt (c :: rest) with
    | some block => some block
    | none => findInclude rest

/-- One page record of `iter_layout_pages`. -/
structure PageRec where
  path : Str
  slug : Str
  has_inline : Bool
deriving DecidableEq

/-- Per-file body of `iter_layout_pages`: files whose text has no include
match are skipped; otherwise one record is produced from the first match. -/
def pageRecordOfFile (path filename text : Str) : Option PageRec :=
  match findInclude text with
  | none => none
  | some block =>
    some { path := path
           slug := slugify (slugCandidate (dictOf (findProps block)) (splitextBase filename))
           has_inline := containsSub descLit block }

/-! ### Report orchestrator (`main`) -/

/-- The classification loop of `main`, returning the `coverage` and
`missing` lists in the order the loop builds them. -/
def classifyAll (lookup : List (Str × Str)) : List PageRec → List (Str × Str) × List (Str × Str)
  | [] => ([], [])
  | r :: rest =>
    let res := classifyAll lookup rest
    if r.has_inline then ((r.path, r.slug) :: res.1, res.2)
    else if containsKey lookup r.slug then ((r.path, r.slug) :: res.1, res.2)
    else (res.1, (r.path, r.slug) :: res.2)

/-- The report object printed by `main`. -/
structure Report where
  total_pages : Nat
  missing_descriptions : List (Str × Str)
deriving DecidableEq

/-- The report built by `main` from the classification. -/
def mainReport (lookup : List (Str × Str)) (pages : List PageRec) : Report :=
  { total_pages := (classifyAll lookup pages).1.length
    missing_descriptions := (classifyAll lookup pages).2 }

/-- One observable output of `main`: the structured report on stdout, or one
line on stderr. -/
inductive OutEvent where
  | outReport (r : Report)
  | errLine (s : Str)
deriving DecidableEq

/-- The stderr line `Missing description for slug '<slug>' from <path>`. -/
def missingMsg (path slug : Str) : Str :=
  "Missing description for slug ".toList ++ [sq] ++ slug ++ [sq] ++
    " from ".toList ++ path

/-- Output events and exit status of `main` after the lookup is loaded: the
report is printed first, then one stderr line per missing page, and the exit
status is 1 exactly when something is missing. -/
def mainRun (lookup : List (Str × Str)) (pages : List PageRec) : List OutEvent × Nat :=
  let miss := (classifyAll lookup pages).2
  (OutEvent.outReport (mainReport lookup pages) ::
      miss.map (fun pr => OutEvent.errLine (missingMsg pr.1 pr.2)),
    if miss.isEmpty then 0 else 1)

/-- The whole run of `main` as a function of the layout text and the scanned
page records: a missing marker aborts with the loader error before any page
is classified. -/
def mainFull (layoutText : Str) (pages : List PageRec) : Except Str (List OutEvent × Nat) :=
  match read_layout_lookup layoutText with
  | Except.error e => Except.error e
  | Except.ok lookup => Except.ok (mainRun lookup pages)

/-- Classification of one page record as the specification words it: an
inline description always covers; otherwise membership of the slug in the
loaded lookup decides. -/
def coveredSpec (lookup : List (Str × Str)) (r : PageRec) : Bool :=
  if r.has_inline then true else containsKey lookup r.slug

/-! ### Orchestrator classification (claims C1, C2, C3, C9) -/

/-- C1: the orchestrator classifies every scanned page record exactly as the
specification states: an inline description covers it regardless of the
lookup, otherwise lookup membership of the slug covers it, otherwise it is
recorded as missing, as the pair (path, slug), in scan order. -/
theorem claim_c1_classification (lookup : List (Str × Str)) (pages : List PageRec) :
    classifyAll lookup pages =
      ((pages.filter (coveredSpec lookup)).map (fun r => (r.path, r.slug)),
        (pages.filter (fun r => !coveredSpec lookup r)).map (fun r => (r.path, r.slug))) := by
  induction pages with
  | nil => rfl
  | cons r rest ih =>
    by_cases hi : r.has_inline
    · simp [classifyAll, coveredSpec, hi, ih]
    · by_cases hk : containsKey lookup r.slug
      · simp [classifyAll, coveredSpec, hi, hk, ih]
      · simp [classifyAll, coveredSpec, hi, hk, ih]

/-- C2: the exit status of the run is 0 exactly when no page is missing a
description and 1 otherwise, and the outputs are the structured report on
stdout followed by one stderr line per missing page of the form
`Missing description for slug <sq><slug><sq> from <path>`. -/
theorem claim_c2_exit_and_streams (lookup : List (Str × Str)) (pages : List PageRec) :
    ((mainRun lookup pages).2 = 0 ↔ (mainReport lookup pages).missing_descriptions = []) ∧
      ((mainRun lookup pages).2 = 0 ∨ (mainRun lookup pages).2 = 1) ∧
      (mainRun lookup pages).1 =
        OutEvent.outReport (mainReport lookup pages) ::
          (mainReport lookup pages).missing_descriptions.map
            (fun pr => OutEvent.errLine (missingMsg pr.1 pr.2)) := by
  refine ⟨?_, ?_, rfl⟩
  · simp [mainRun, mainReport, List.isEmpty_iff]
  · by_cases h : (classifyAll lookup pages).2.isEmpty <;> simp [mainRun, h]

/-- Lengths of the two classification lists partition the scanned pages. -/
theorem classifyAll_length (lookup : List (Str × Str)) (pages : List PageRec) :
    (classifyAll lookup pages).1.length + (classifyAll lookup pages).2.length =
      pages.length := by
  induction pages with
  | nil => rfl
  | cons r rest ih =>
    by_cases hi : r.has_inline
    · simp only [classifyAll, hi, if_true, List.length_cons]
      omega
    · by_cases hk : containsKey lookup r.slug <;>
        · simp only [classifyAll, hi, hk, if_true, if_false, Bool.false_eq_true,
            List.length_cons]
          omega

/-- C3: `total_pages` counts only covered pages, so it and the number of
missing pages together account for every scanned layout-including page. -/
theorem claim_c3_total_pages (lookup : List (Str × Str)) (pages : List PageRec) :
    (mainReport lookup pages).total_pages = (classifyAll lookup pages).1.length ∧
      (mainReport lookup pages).total_pages +
        (mainReport lookup pages).missing_descriptions.length = pages.length :=
  ⟨rfl, classifyAll_length lookup pages⟩

/-- C9: coverage is monotone in the inline-description flag: a record covered
through the lookup table stays covered when its inline flag is set. -/
theorem claim_c9_monotone (lookup : List (Str × Str)) (p s : Str)
    (h : (classifyAll lookup [⟨p, s, false⟩]).1 = [(p, s)]) :
    classifyAll lookup [⟨p, s, true⟩] = ([(p, s)], []) := by
  simp [classifyAll]

/-- Witness for C9 at a concrete lookup and record. -/
theorem claim_c9_monotone_witness :
    classifyAll [("about".toList, "d".toList)] [⟨"p".toList, "about".toList, true⟩] =
      ([("p".toList, "about".toList)], []) :=
  claim_c9_monotone [("about".toList, "d".toList)] "p".toList "about".toList (by decide)

/-! ### Loader failure (claim C4) -/

/-- C4: a layout text without the description-table marker makes the whole
run abort with the loader error, for every page list alike: no report or
missing-page finding is ever produced. -/
theorem claim_c4_fatal_marker (layoutText : Str) (pages : List PageRec)
    (h : findEntriesBlock layoutText = none) :
    mainFull layoutText pages = Except.error markerError := by
  simp [mainFull, read_layout_lookup, h]

/-- Witness for C4 on a concrete marker-free layout text. -/
theorem claim_c4_fatal_marker_witness :
    mainFull "<html>no marker</html>".toList [⟨"p".toList, "s".toList, false⟩] =
      Except.error markerError :=
  claim_c4_fatal_marker "<html>no marker</html>".toList
    [⟨"p".toList, "s".toList, false⟩] (by decide)

/-! ### Normaliser invariants (claims C7, C8)

Four structural properties of a finished slug are tracked through the
`slugify` pipeline: its characters are lower-case alphanumerics or hyphens
(`okCh`), no two hyphens are adjacent (`noDD`), and neither end is a hyphen
(`headNotDash`, `lastNotDash`). -/

/-- All characters are lower-case alphanumerics or hyphens. -/
def okCh (l : Str) : Bool := l.all (fun c => isLowerAlnum c || c == Char.ofNat 45)

/-- No character is an upper-case ASCII letter. -/
def noUpper (l : Str) : Bool := l.all (fun c => !(65 ≤ c.toNat && c.toNat ≤ 90))

/-- No two adjacent hyphens. -/
def noDD : Str → Bool
  | a :: b :: rest => !(a == Char.ofNat 45 && b == Char.ofNat 45) && noDD (b :: rest)
  | _ => true

/-- The first character, when present, is not a hyphen. -/
def headNotDash : Str → Bool
  | [] => true
  | c :: _ => c != Char.ofNat 45

/-- The last character, when present, is not a hyphen. -/
def lastNotDash : Str → Bool
  | [] => true
  | [c] => c != Char.ofNat 45
  | _ :: c :: rest => lastNotDash (c :: rest)

theorem toNat_ofNat_lt {n : Nat} (h : n < 55296) : (Char.ofNat n).toNat = n := by
  unfold Char.ofNat
  rw [dif_pos (Or.inl h)]
  rfl

theorem pyLower_toNat (c : Char) :
    (pyLower c).toNat = if 65 ≤ c.toNat ∧ c.toNat ≤ 90 then c.toNat + 32 else c.toNat := by
  unfold pyLower
  by_cases h : 65 ≤ c.toNat ∧ c.toNat ≤ 90
  · rw [if_pos (by simpa using h), if_pos h]
    exact toNat_ofNat_lt (by omega)
  · rw [if_neg (by simpa using h), if_neg h]

theorem noDD_cons (c : Char) (l : Str) :
    noDD (c :: l) = ((!(c == Char.ofNat 45) || headNotDash l) && noDD l) := by
  cases l with
  | nil => simp [noDD, headNotDash]
  | cons d rest => simp [noDD, headNotDash, bne, Bool.not_and]

theorem noDD_tail {c : Char} {l : Str} (h : noDD (c :: l) = true) : noDD l = true := by
  rw [noDD_cons, Bool.and_eq_true] at h
  exact h.2

theorem lastNotDash_cons {c : Char} {l : Str} (h : l ≠ []) :
    lastNotDash (c :: l) = lastNotDash l := by
  cases l with
  | nil => exact absurd rfl h
  | cons d rest => rfl

theorem isLowerAlnum_of_alnum_notUpper {c : Char} (h1 : isAlnumA c = true)
    (h2 : (!(65 ≤ c.toNat && c.toNat ≤ 90)) = true) : isLowerAlnum c = true := by
  simp only [isAlnumA, Bool.or_eq_true, Bool.and_eq_true, decide_eq_true_eq] at h1
  simp only [Bool.not_eq_true', Bool.and_eq_false_iff, decide_eq_false_iff_not,
    not_le] at h2
  simp only [isLowerAlnum, Bool.or_eq_true, Bool.and_eq_true, decide_eq_true_eq]
  omega

theorem pyLower_eq_self {c : Char} (h : (isLowerAlnum c || c == Char.ofNat 45) = true) :
    pyLower c = c := by
  have hc : c.toNat < 65 ∨ 90 < c.toNat := by
    simp only [Bool.or_eq_true, isLowerAlnum, Bool.and_eq_true, decide_eq_true_eq,
      beq_iff_eq] at h
    rcases h with (h | h) | h
    · omega
    · omega
    · subst h
      left
      rw [toNat_ofNat_lt (by omega)]
      omega
  unfold pyLower
  rw [if_neg]
  simp only [Bool.and_eq_true, decide_eq_true_eq, not_and, not_le]
  omega

theorem noUpper_map_pyLower (l : Str) : noUpper (l.map pyLower) = true := by
  simp only [noUpper, List.all_map, List.all_eq_true, Function.comp]
  intro c _
  simp only [Bool.not_eq_true', Bool.and_eq_false_iff, decide_eq_false_iff_not, not_le]
  have := pyLower_toNat c
  by_cases h : 65 ≤ c.toNat ∧ c.toNat ≤ 90 <;> simp [h] at this <;> omega

theorem okCh_subRunsAux (l : Str) (h : noUpper l = true) :
    ∀ b, okCh (subRunsAux b l) = true := by
  induction l with
  | nil => intro b; rfl
  | cons c rest ih =>
    rw [noUpper, List.all_cons, Bool.and_eq_true] at h
    intro b
    by_cases hc : isAlnumA c = true
    · unfold subRunsAux
      rw [if_pos hc, okCh, List.all_cons, Bool.and_eq_true]
      exact ⟨Bool.or_inl (isLowerAlnum_of_alnum_notUpper hc h.1), ih h.2 false⟩
    · unfold subRunsAux
      rw [if_neg hc]
      cases b with
      | true =>
        rw [if_pos rfl]
        exact ih h.2 true
      | false =>
        rw [if_neg (by simp), okCh, List.all_cons, Bool.and_eq_true]
        exact ⟨by decide, ih h.2 true⟩

theorem okCh_collapseAux (l : Str) (h : okCh l = true) :
    ∀ b, okCh (collapseAux b l) = true := by
  induction l with
  | nil => intro b; rfl
  | cons c rest ih =>
    rw [okCh, List.all_cons, Bool.and_eq_true] at h
    intro b
    by_cases hc : (c == Char.ofNat 45) = true
    · unfold collapseAux
      rw [if_pos hc]
      cases b with
      | true =>
        rw [if_pos rfl]
        exact ih h.2 true
      | false =>
        rw [if_neg (by simp), okCh, List.all_cons, Bool.and_eq_true]
        exact ⟨h.1, ih h.2 true⟩
    · unfold collapseAux
      rw [if_neg hc, okCh, List.all_cons, Bool.and_eq_true]
      exact ⟨h.1, ih h.2 false⟩

theorem headNotDash_collapseAux_true (l : Str) : headNotDash (collapseAux true l) = true := by
  induction l with
  | nil => rfl
  | cons c rest ih =>
    by_cases hc : (c == Char.ofNat 45) = true
    · unfold collapseAux
      rw [if_pos hc, if_pos rfl]
      exact ih
    · have hc2 : (c == Char.ofNat 45) = false := by simpa using hc
      unfold collapseAux
      rw [if_neg hc]
      show (c != Char.ofNat 45) = true
      simp [bne, hc2]

theorem noDD_collapseAux (l : Str) : ∀ b, noDD (collapseAux b l) = true := by
  induction l with
  | nil => intro b; rfl
  | cons c rest ih =>
    intro b
    by_cases hc : (c == Char.ofNat 45) = true
    · unfold collapseAux
      rw [if_pos hc]
      cases b with
      | true =>
        rw [if_pos rfl]
        exact ih true
      | false =>
        rw [if_neg (by simp), noDD_cons, Bool.and_eq_true]
        refine ⟨?_, ih true⟩
        rw [Bool.or_eq_true_iff]
        exact Or.inr (headNotDash_collapseAux_true rest)
    · have hc2 : (c == Char.ofNat 45) = false := by simpa using hc
      unfold collapseAux
      rw [if_neg hc, noDD_cons, Bool.and_eq_true]
      refine ⟨?_, ih false⟩
      rw [Bool.or_eq_true_iff]
      exact Or.inl (by simp [hc2])

theorem mem_dropTrailing {p : Char → Bool} {l : Str} {x : Char}
    (h : x ∈ dropTrailing p l) : x ∈ l := by
  induction l with
  | nil => simpa [dropTrailing] using h
  | cons c rest ih =>
    simp only [dropTrailing] at h
    by_cases hc : (dropTrailing p rest).isEmpty && p c
    · simp [hc] at h
    · rw [if_neg hc] at h
      rcases List.mem_cons.mp h with h | h
      · exact h ▸ List.mem_cons_self c rest
      · exact List.mem_cons_of_mem c (ih h)

theorem okCh_dropWhile {p : Char → Bool} {l : Str} (h : okCh l = true) :
    okCh (l.dropWhile p) = true := by
  rw [okCh, List.all_eq_true] at h ⊢
  intro x hx
  exact h x (List.dropWhile_sublist p |>.subset hx)

theorem okCh_dropTrailing {p : Char → Bool} {l : Str} (h : okCh l = true) :
    okCh (dropTrailing p l) = true := by
  rw [okCh, List.all_eq_true] at h ⊢
  intro x hx
  exact h x (mem_dropTrailing hx)

theorem noDD_dropWhile {p : Char → Bool} {l : Str} (h : noDD l = true) :
    noDD (l.dropWhile p) = true := by
  induction l with
  | nil => simpa using h
  | cons c rest ih =>
    rw [List.dropWhile_cons]
    by_cases hc : p c = true
    · simp only [hc, if_true]
      exact ih (noDD_tail h)
    · simpa [hc] using h

theorem headNotDash_dropTrailing {p : Char → Bool} {l : Str}
    (h : headNotDash l = true) : headNotDash (dropTrailing p l) = true := by
  cases l with
  | nil => rfl
  | cons c rest =>
    simp only [dropTrailing]
    by_cases hc : ((dropTrailing p rest).isEmpty && p c) = true
    · rw [if_pos hc]
      rfl
    · rw [if_neg hc]
      exact h

theorem noDD_dropTrailing {p : Char → Bool} {l : Str} (h : noDD l = true) :
    noDD (dropTrailing p l) = true := by
  induction l with
  | nil => simpa using h
  | cons c rest ih =>
    simp only [dropTrailing]
    by_cases hc : (dropTrailing p rest).isEmpty && p c
    · simp [hc, noDD]
    · rw [if_neg hc, noDD_cons, Bool.and_eq_true, Bool.or_eq_true]
      have hrest := noDD_tail h
      refine ⟨?_, ih hrest⟩
      rw [noDD_cons, Bool.and_eq_true, Bool.or_eq_true] at h
      rcases h.1 with hhead | hhead
      · exact Or.inl hhead
      · exact Or.inr (headNotDash_dropTrailing hhead)

theorem headNotDash_dropWhile_dash (l : Str) :
    headNotDash (l.dropWhile (fun c => c == Char.ofNat 45)) = true := by
  induction l with
  | nil => rfl
  | cons c rest ih =>
    rw [List.dropWhile_cons]
    by_cases hc : (c == Char.ofNat 45) = true
    · rw [if_pos hc]
      exact ih
    · have hc2 : (c == Char.ofNat 45) = false := by simpa using hc
      rw [if_neg hc]
      show (c != Char.ofNat 45) = true
      simp [bne, hc2]

theorem lastNotDash_dropTrailing_dash (l : Str) :
    lastNotDash (dropTrailing (fun c => c == Char.ofNat 45) l) = true := by
  induction l with
  | nil => rfl
  | cons c rest ih =>
    simp only [dropTrailing]
    by_cases hc : (dropTrailing (fun c => c == Char.ofNat 45) rest).isEmpty &&
        (c == Char.ofNat 45)
    · simp [hc, lastNotDash]
    · rw [if_neg hc]
      rcases hr : dropTrailing (fun c => c == Char.ofNat 45) rest with _ | ⟨d, r⟩
      · rw [hr] at hc
        simp only [List.isEmpty_nil, Bool.true_and] at hc
        simp only [lastNotDash, bne]
        simpa using hc
      · rw [hr] at ih
        rw [lastNotDash_cons (by simp)]
        exact ih

theorem slugPatTail_of (l : Str) (h1 : okCh l = true) (h2 : noDD l = true)
    (h4 : lastNotDash l = true) : slugPatTail l = true := by
  induction l with
  | nil => rfl
  | cons c rest ih =>
    rw [okCh, List.all_cons, Bool.and_eq_true] at h1
    by_cases hc : (c == Char.ofNat 45) = true
    · cases rest with
      | nil =>
        rw [lastNotDash] at h4
        simp [bne, hc] at h4
      | cons d r =>
        unfold slugPatTail
        rw [if_pos hc, Bool.and_eq_true]
        rw [noDD_cons, Bool.and_eq_true, Bool.or_eq_true_iff] at h2
        have hd : headNotDash (d :: r) = true := by
          rcases h2.1 with hx | hx
          · simp [hc] at hx
          · exact hx
        refine ⟨?_, ih h1.2 h2.2 (by rwa [lastNotDash_cons (by simp)] at h4)⟩
        have hd2 : (isLowerAlnum d || d == Char.ofNat 45) = true := by
          have h5 := h1.2
          rw [List.all_cons, Bool.and_eq_true] at h5
          exact h5.1
        rw [Bool.or_eq_true_iff] at hd2
        rcases hd2 with hd2 | hd2
        · exact hd2
        · rw [headNotDash] at hd
          simp [bne, hd2] at hd
    · unfold slugPatTail
      rw [if_neg hc, Bool.and_eq_true]
      have hlast : lastNotDash rest = true := by
        cases rest with
        | nil => rfl
        | cons d r => rwa [lastNotDash_cons (by simp)] at h4
      refine ⟨?_, ih h1.2 (noDD_tail h2) hlast⟩
      rcases Bool.or_eq_true_iff.mp h1.1 with hx | hx
      · exact hx
      · exact absurd hx hc

theorem matchesSlugPat_of (l : Str) (h1 : okCh l = true) (h2 : noDD l = true)
    (h3 : headNotDash l = true) (h4 : lastNotDash l = true) :
    matchesSlugPat l = true := by
  cases l with
  | nil => rfl
  | cons c rest =>
    rw [okCh, List.all_cons, Bool.and_eq_true] at h1
    unfold matchesSlugPat
    rw [Bool.and_eq_true]
    have hlast : lastNotDash rest = true := by
      cases rest with
      | nil => rfl
      | cons d r => rwa [lastNotDash_cons (by simp)] at h4
    refine ⟨?_, slugPatTail_of rest h1.2 (noDD_tail h2) hlast⟩
    rcases Bool.or_eq_true_iff.mp h1.1 with hx | hx
    · exact hx
    · rw [headNotDash] at h3
      simp [bne, hx] at h3

/-- The four structural invariants hold of every `slugify` output. -/
theorem slugify_props (s : Str) :
    okCh (slugify s) = true ∧ noDD (slugify s) = true ∧
      headNotDash (slugify s) = true ∧ lastNotDash (slugify s) = true := by
  unfold slugify stripDashes
  have h1 : okCh (collapseDashes (subRuns ((pyStrip s).map pyLower))) = true :=
    okCh_collapseAux _ (okCh_subRunsAux _ (noUpper_map_pyLower _) false) false
  have h2 : noDD (collapseDashes (subRuns ((pyStrip s).map pyLower))) = true :=
    noDD_collapseAux _ false
  refine ⟨okCh_dropTrailing (okCh_dropWhile h1),
    noDD_dropTrailing (noDD_dropWhile h2),
    headNotDash_dropTrailing (headNotDash_dropWhile_dash _),
    lastNotDash_dropTrailing_dash _⟩

/-- C7: for every string, the normaliser's output matches
`^[a-z0-9]+(-[a-z0-9]+)*$` or is empty: only lower-case letters, digits and
single non-repeated hyphens, never leading or trailing; the function is
total and the empty input gives the empty output. -/
theorem claim_c7_charset (s : Str) :
    matchesSlugPat (slugify s) = true ∧ slugify [] = [] :=
  ⟨matchesSlugPat_of _ (slugify_props s).1 (slugify_props s).2.1
    (slugify_props s).2.2.1 (slugify_props s).2.2.2, rfl⟩

theorem toNat_facts_of_okCh {c : Char} (h : (isLowerAlnum c || c == Char.ofNat 45) = true) :
    (97 ≤ c.toNat ∧ c.toNat ≤ 122) ∨ (48 ≤ c.toNat ∧ c.toNat ≤ 57) ∨ c.toNat = 45 := by
  rw [Bool.or_eq_true_iff] at h
  rcases h with h | h
  · simp only [isLowerAlnum, Bool.or_eq_true, Bool.and_eq_true, decide_eq_true_eq] at h
    tauto
  · rw [beq_iff_eq] at h
    subst h
    right; right
    exact toNat_ofNat_lt (by omega)

theorem not_space_of_okCh {c : Char} (h : (isLowerAlnum c || c == Char.ofNat 45) = true) :
    isPySpace c = false := by
  have hf := toNat_facts_of_okCh h
  simp only [isPySpace, Bool.or_eq_false_iff, Bool.and_eq_false_iff, beq_eq_false_iff_ne,
    ne_eq, decide_eq_false_iff_not, not_le]
  omega

theorem dropWhile_eq_self_all {p : Char → Bool} {l : Str} (h : ∀ c ∈ l, p c = false) :
    l.dropWhile p = l := by
  cases l with
  | nil => rfl
  | cons c rest =>
    rw [List.dropWhile_cons, if_neg]
    rw [h c (List.mem_cons_self c rest)]
    simp

theorem dropTrailing_eq_self_all {p : Char → Bool} {l : Str} (h : ∀ c ∈ l, p c = false) :
    dropTrailing p l = l := by
  induction l with
  | nil => rfl
  | cons c rest ih =>
    simp only [dropTrailing]
    rw [ih (fun d hd => h d (List.mem_cons_of_mem c hd)),
      h c (List.mem_cons_self c rest)]
    simp

theorem pyStrip_eq_self {l : Str} (h : okCh l = true) : pyStrip l = l := by
  rw [okCh, List.all_eq_true] at h
  have hs : ∀ c ∈ l, isPySpace c = false := fun c hc => not_space_of_okCh (h c hc)
  unfold pyStrip
  rw [dropWhile_eq_self_all hs, dropTrailing_eq_self_all hs]

theorem map_pyLower_eq_self {l : Str} (h : okCh l = true) : l.map pyLower = l := by
  induction l with
  | nil => rfl
  | cons c rest ih =>
    rw [okCh, List.all_cons, Bool.and_eq_true] at h
    rw [List.map_cons, pyLower_eq_self h.1, ih h.2]

theorem subRunsAux_id (l : Str) (h1 : okCh l = true) (h2 : noDD l = true) :
    subRunsAux false l = l ∧ (headNotDash l = true → subRunsAux true l = l) := by
  induction l with
  | nil => exact ⟨rfl, fun _ => rfl⟩
  | cons c rest ih =>
    rw [okCh, List.all_cons, Bool.and_eq_true] at h1
    have ihr := ih h1.2 (noDD_tail h2)
    rcases Bool.or_eq_true_iff.mp h1.1 with hl | hd
    · have ha : isAlnumA c = true := by
        simp only [isLowerAlnum, Bool.or_eq_true, Bool.and_eq_true, decide_eq_true_eq] at hl
        simp only [isAlnumA, Bool.or_eq_true, Bool.and_eq_true, decide_eq_true_eq]
        tauto
      constructor
      · unfold subRunsAux
        rw [if_pos ha, ihr.1]
      · intro _
        unfold subRunsAux
        rw [if_pos ha, ihr.1]
    · rw [beq_iff_eq] at hd
      subst hd
      have ha : ¬(isAlnumA (Char.ofNat 45) = true) := by decide
      have hhead : headNotDash rest = true := by
        rw [noDD_cons, Bool.and_eq_true, Bool.or_eq_true_iff] at h2
        rcases h2.1 with hx | hx
        · simp at hx
        · exact hx
      constructor
      · unfold subRunsAux
        rw [if_neg ha, if_neg (by simp), ihr.2 hhead]
      · intro hh
        rw [headNotDash] at hh
        simp [bne] at hh

theorem collapseAux_id (l : Str) (h2 : noDD l = true) :
    collapseAux false l = l ∧ (headNotDash l = true → collapseAux true l = l) := by
  induction l with
  | nil => exact ⟨rfl, fun _ => rfl⟩
  | cons c rest ih =>
    have ihr := ih (noDD_tail h2)
    by_cases hc : (c == Char.ofNat 45) = true
    · have hhead : headNotDash rest = true := by
        rw [noDD_cons, Bool.and_eq_true, Bool.or_eq_true_iff] at h2
        rcases h2.1 with hx | hx
        · rw [hc] at hx
          simp at hx
        · exact hx
      constructor
      · unfold collapseAux
        rw [if_pos hc, if_neg (by simp), ihr.2 hhead]
      · intro hh
        rw [headNotDash] at hh
        rw [beq_iff_eq] at hc
        simp [bne, hc] at hh
    · constructor
      · unfold collapseAux
        rw [if_neg hc, ihr.1]
      · intro _
        unfold collapseAux
        rw [if_neg hc, ihr.1]

theorem dropTrailing_dash_eq_self {l : Str} (h4 : lastNotDash l = true) :
    dropTrailing (fun c => c == Char.ofNat 45) l = l := by
  induction l with
  | nil => rfl
  | cons c rest ih =>
    simp only [dropTrailing]
    cases rest with
    | nil =>
      rw [lastNotDash] at h4
      have : (c == Char.ofNat 45) = false := by
        simpa [bne] using h4
      simp [dropTrailing, this]
    | cons d r =>
      rw [ih (by rwa [lastNotDash_cons (by simp)] at h4)]
      simp

theorem stripDashes_eq_self {l : Str} (h3 : headNotDash l = true)
    (h4 : lastNotDash l = true) : stripDashes l = l := by
  unfold stripDashes
  have hdw : l.dropWhile (fun c => c == Char.ofNat 45) = l := by
    cases l with
    | nil => rfl
    | cons c rest =>
      rw [headNotDash] at h3
      rw [List.dropWhile_cons, if_neg]
      simpa [bne] using h3
  rw [hdw, dropTrailing_dash_eq_self h4]

/-- A string with the four slug invariants is a fixed point of `slugify`. -/
theorem slugify_eq_self {l : Str} (h1 : okCh l = true) (h2 : noDD l = true)
    (h3 : headNotDash l = true) (h4 : lastNotDash l = true) : slugify l = l := by
  unfold slugify subRuns collapseDashes
  rw [pyStrip_eq_self h1, map_pyLower_eq_self h1, (subRunsAux_id l h1 h2).1,
    (collapseAux_id l h2).1, stripDashes_eq_self h3 h4]

/-- C8: the slug normaliser is idempotent: normalising an already normalised
string changes nothing. -/
theorem claim_c8_idempotent (s : Str) : slugify (slugify s) = slugify s :=
  slugify_eq_self (slugify_props s).1 (slugify_props s).2.1
    (slugify_props s).2.2.1 (slugify_props s).2.2.2

/-! ### Dict lemmas and the alias invariant (claim C6) -/

theorem getValue_eq_some_mem {d : List (Str × Str)} {k v : Str}
    (h : getValue d k = some v) : (k, v) ∈ d := by
  unfold getValue at h
  rcases Option.map_eq_some'.mp h with ⟨p, hp, hv⟩
  have hq := List.find?_some hp
  have hm : p ∈ d := List.mem_of_find?_eq_some hp
  simp only [beq_iff_eq] at hq
  cases p with
  | mk a b =>
    simp only at hq hv
    rw [← hq, ← hv] at *
    exact hm

theorem containsKey_of_getValue {d : List (Str × Str)} {k v : Str}
    (h : getValue d k = some v) : containsKey d k = true := by
  rcases Option.map_eq_some'.mp h with ⟨p, hp, _⟩
  unfold containsKey
  rw [List.any_eq_true]
  exact ⟨p, List.mem_of_find?_eq_some hp, by simpa using List.find?_some hp⟩

theorem find?_map_replace_self (k v : Str) :
    ∀ d : List (Str × Str), d.any (fun p => p.1 == k) = true →
      (d.map (fun p => if p.1 == k then (k, v) else p)).find? (fun p => p.1 == k) =
        some (k, v) := by
  intro d
  induction d with
  | nil => intro h; simp at h
  | cons p rest ih =>
    intro h
    rw [List.map_cons]
    by_cases hp : (p.1 == k) = true
    · rw [if_pos hp]
      simp [List.find?]
    · rw [if_neg hp]
      rw [List.any_cons, Bool.or_eq_true_iff] at h
      rcases h with h | h
      · exact absurd h hp
      · simp only [List.find?, hp]
        exact ih h

theorem find?_append_none {q : Str × Str → Bool} {l1 : List (Str × Str)}
    (l2 : List (Str × Str)) (h : l1.find? q = none) :
    (l1 ++ l2).find? q = l2.find? q := by
  induction l1 with
  | nil => rfl
  | cons p rest ih =>
    simp only [List.find?] at h ⊢
    cases hq : q p with
    | true => rw [hq] at h; simp at h
    | false =>
      rw [hq] at h
      exact ih h

theorem find?_append_some {q : Str × Str → Bool} {l1 : List (Str × Str)} {x : Str × Str}
    (l2 : List (Str × Str)) (h : l1.find? q = some x) :
    (l1 ++ l2).find? q = some x := by
  induction l1 with
  | nil => simp at h
  | cons p rest ih =>
    simp only [List.find?] at h ⊢
    cases hq : q p with
    | true => rwa [hq] at h
    | false =>
      rw [hq] at h
      exact ih h

theorem getValue_dictInsert_self (d : List (Str × Str)) (k v : Str) :
    getValue (dictInsert d k v) k = some v := by
  unfold dictInsert getValue
  by_cases h : d.any (fun p => p.1 == k) = true
  · rw [if_pos h, find?_map_replace_self k v d h]
    rfl
  · rw [if_neg h]
    have hn : d.find? (fun p => p.1 == k) = none := by
      rw [List.find?_eq_none]
      intro x hx hq
      exact h (List.any_eq_true.mpr ⟨x, hx, hq⟩)
    rw [find?_append_none _ hn]
    simp [List.find?]

theorem find?_map_replace_ne (k v k' : Str) (hne : k' ≠ k) :
    ∀ d : List (Str × Str),
      (d.map (fun p => if p.1 == k then (k, v) else p)).find? (fun p => p.1 == k') =
        d.find? (fun p => p.1 == k') := by
  intro d
  induction d with
  | nil => rfl
  | cons p rest ih =>
    rw [List.map_cons]
    by_cases hp : (p.1 == k) = true
    · rw [if_pos hp]
      have hk : (k == k') = false := by
        rw [beq_eq_false_iff_ne]
        exact fun hx => hne hx.symm
      have hp2 : (p.1 == k') = false := by
        rw [beq_iff_eq] at hp
        rw [hp]
        exact hk
      simp only [List.find?, hk, hp2]
      exact ih
    · rw [if_neg hp]
      simp only [List.find?]
      cases hq : (p.1 == k') with
      | true => rfl
      | false => exact ih

theorem getValue_dictInsert_ne (d : List (Str × Str)) (k v k' : Str) (hne : k' ≠ k) :
    getValue (dictInsert d k v) k' = getValue d k' := by
  unfold dictInsert getValue
  by_cases h : d.any (fun p => p.1 == k) = true
  · rw [if_pos h, find?_map_replace_ne k v k' hne d]
  · rw [if_neg h]
    cases hf : d.find? (fun p => p.1 == k') with
    | some x => simp [find?_append_some _ hf, hf]
    | none =>
      rw [find?_append_none _ hf]
      have hk : (k == k') = false := by
        rw [beq_eq_false_iff_ne]
        exact fun hx => hne hx.symm
      simp [List.find?, hk, hf]

theorem map_fst_dictInsert (d : List (Str × Str)) (k v : Str) :
    (dictInsert d k v).map Prod.fst =
      if containsKey d k then d.map Prod.fst else d.map Prod.fst ++ [k] := by
  unfold dictInsert containsKey
  by_cases h : d.any (fun p => p.1 == k) = true
  · rw [if_pos h, if_pos h, List.map_map]
    refine List.map_congr_left ?_
    intro p _
    by_cases hp : (p.1 == k) = true
    · rw [beq_iff_eq] at hp
      simp [Function.comp, hp]
    · simp [Function.comp, hp]
  · rw [if_neg h, if_neg h, List.map_append]
    rfl

theorem nodupKeys_dictInsert {d : List (Str × Str)} (k v : Str)
    (h : (d.map Prod.fst).Nodup) : ((dictInsert d k v).map Prod.fst).Nodup := by
  rw [map_fst_dictInsert]
  by_cases hc : containsKey d k = true
  · rwa [if_pos hc]
  · rw [if_neg hc]
    rw [List.nodup_append]
    refine ⟨h, List.nodup_singleton k, ?_⟩
    intro x hx hxk
    rw [List.mem_singleton] at hxk
    subst hxk
    rcases List.mem_map.mp hx with ⟨p, hp, hpk⟩
    unfold containsKey at hc
    exact hc (List.any_eq_true.mpr ⟨p, hp, by rw [beq_iff_eq]; exact hpk⟩)

theorem nodupKeys_dictOf (pairs : List (Str × Str)) :
    ((dictOf pairs).map Prod.fst).Nodup := by
  unfold dictOf
  suffices h : ∀ acc : List (Str × Str), (acc.map Prod.fst).Nodup →
      ((pairs.foldl (fun d p => dictInsert d p.1 p.2) acc).map Prod.fst).Nodup by
    exact h [] List.nodup_nil
  induction pairs with
  | nil => exact fun acc h => h
  | cons p rest ih =>
    intro acc hacc
    exact ih (dictInsert acc p.1 p.2) (nodupKeys_dictInsert p.1 p.2 hacc)

theorem processEntry_preserves (entriesAll acc : List (Str × Str)) (kv : Str × Str)
    (k v : Str) (hk : containsKey entriesAll k = true) (hne : kv.1 ≠ k)
    (hacc : getValue acc k = some v) :
    getValue (processEntry entriesAll acc kv) k = some v := by
  unfold processEntry
  by_cases h0 : kv.2.isEmpty = true
  · rwa [if_pos h0]
  · rw [if_neg h0]
    have h1 : getValue (dictInsert acc kv.1 kv.2) k = some v :=
      (getValue_dictInsert_ne acc kv.1 kv.2 k (fun hx => hne hx.symm)).trans hacc
    set collapsed := kv.1.filter (fun c => c != Char.ofNat 45) with hcol
    by_cases hg : (!collapsed.isEmpty && collapsed != kv.1 &&
        !containsKey entriesAll collapsed &&
        !containsKey (dictInsert acc kv.1 kv.2) collapsed) = true
    · rw [if_pos hg]
      have hner : k ≠ collapsed := by
        intro hx
        subst hx
        rw [Bool.and_eq_true, Bool.and_eq_true, Bool.and_eq_true] at hg
        rw [hk] at hg
        simp at hg
      exact (getValue_dictInsert_ne _ collapsed kv.2 k hner).trans h1
    · rwa [if_neg hg]

theorem foldl_processEntry_preserves (entriesAll : List (Str × Str))
    (todo : List (Str × Str)) : ∀ acc k v, containsKey entriesAll k = true →
      getValue acc k = some v → (∀ kv ∈ todo, kv.1 ≠ k) →
      getValue (todo.foldl (processEntry entriesAll) acc) k = some v := by
  induction todo with
  | nil => exact fun acc k v _ hacc _ => hacc
  | cons kv rest ih =>
    intro acc k v hk hacc hall
    rw [List.foldl_cons]
    exact ih _ k v hk
      (processEntry_preserves entriesAll acc kv k v hk
        (hall kv (List.mem_cons_self kv rest)) hacc)
      (fun x hx => hall x (List.mem_cons_of_mem kv hx))

theorem foldl_processEntry_inserts (entriesAll : List (Str × Str))
    (todo : List (Str × Str)) : ∀ acc k v, (k, v) ∈ todo → v ≠ [] →
      ((todo.map Prod.fst).Nodup) → containsKey entriesAll k = true →
      getValue (todo.foldl (processEntry entriesAll) acc) k = some v := by
  induction todo with
  | nil => intro acc k v h; simp at h
  | cons kv rest ih =>
    intro acc k v hmem hv hnd hk
    rw [List.map_cons, List.nodup_cons] at hnd
    rw [List.foldl_cons]
    rcases List.mem_cons.mp hmem with heq | hmem
    · subst heq
      refine foldl_processEntry_preserves entriesAll rest _ k v hk ?_ ?_
      · show getValue (processEntry entriesAll acc (k, v)) k = some v
        unfold processEntry
        have h0 : ((k, v).2.isEmpty) = false := by
          simpa [List.isEmpty_iff] using hv
        rw [if_neg (by simp [h0])]
        have h1 : getValue (dictInsert acc k v) k = some v :=
          getValue_dictInsert_self acc k v
        set collapsed := (k, v).1.filter (fun c => c != Char.ofNat 45) with hcol
        by_cases hg : (!collapsed.isEmpty && collapsed != (k, v).1 &&
            !containsKey entriesAll collapsed &&
            !containsKey (dictInsert acc (k, v).1 (k, v).2) collapsed) = true
        · rw [if_pos hg]
          have hner : k ≠ collapsed := by
            intro hx
            rw [Bool.and_eq_true, Bool.and_eq_true, Bool.and_eq_true] at hg
            rw [← hx, hk] at hg
            simp at hg
          exact (getValue_dictInsert_ne _ collapsed v k hner).trans h1
        · rwa [if_neg hg]
      · intro x hx hxk
        exact hnd.1 (hxk ▸ List.mem_map.mpr ⟨x, hx, rfl⟩)
    · exact ih _ k v hmem hv hnd.2 hk

/-- C6: for every input layout text the loader accepts, every explicit entry
of the source block with a nonempty description keeps exactly its own
description in the returned lookup: the hyphen-stripped alias registration,
guarded as it is by the three conditions of the source, never overwrites an
explicit key. -/
theorem claim_c6_alias_no_overwrite (layoutText block : Str)
    (hb : findEntriesBlock layoutText = some block) :
    read_layout_lookup layoutText = Except.ok (buildLookup (entriesOf block)) ∧
      ∀ k v, getValue (entriesOf block) k = some v → v ≠ [] →
        getValue (buildLookup (entriesOf block)) k = some v := by
  constructor
  · unfold read_layout_lookup
    rw [hb]
  · intro k v hget hv
    have hmem : (k, v) ∈ entriesOf block := getValue_eq_some_mem hget
    have hk : containsKey (entriesOf block) k = containsKey (entriesOf block) k := rfl
    unfold buildLookup
    exact foldl_processEntry_inserts (entriesOf block) (entriesOf block) [] k v hmem hv
      (nodupKeys_dictOf _) (containsKey_of_getValue hget)

/-- Sample entries block with a hyphenated key whose alias could collide. -/
def sampleBlock : Str :=
  "\x27about-us\x27: \x27About\x27, \x27case-study\x27: \x27Case\x27".toList

/-- Sample layout text containing the marker and the sample block. -/
def sampleLayout : Str := markerLit ++ sampleBlock ++ closeEntriesLit

/-- Witness for C6 on the sample layout: both explicit hyphenated keys keep
their own descriptions in the built lookup. -/
theorem claim_c6_alias_no_overwrite_witness :
    read_layout_lookup sampleLayout = Except.ok (buildLookup (entriesOf sampleBlock)) ∧
      getValue (buildLookup (entriesOf sampleBlock)) "case-study".toList =
        some "Case".toList := by
  have h := claim_c6_alias_no_overwrite sampleLayout sampleBlock (by decide)
  exact ⟨h.1, h.2 "case-study".toList "Case".toList (by decide) (by decide)⟩

/-! ### Fallback-operator slug resolution (claim C5) -/

theorem takeUntilFirst_eq_none {pat l : Str} (h : containsSub pat l = false) :
    takeUntilFirst pat l = none := by
  induction l with
  | nil => rfl
  | cons c rest ih =>
    unfold containsSub splitOnFirst at h
    unfold takeUntilFirst
    by_cases hc : ((c :: rest).take pat.length == pat) = true
    · rw [if_pos hc] at h
      simp at h
    · rw [if_neg hc] at h ⊢
      rw [ih h]
      rfl

/-- Property block of the counterexample: the fallback operand is an empty
quoted string. -/
def ceBlock : Str := "pageSlug: (someVar || \x27\x27)".toList

/-- Raw value the props regex extracts from `ceBlock` for `pageSlug`. -/
def ceRaw : Str := "(someVar || \x27\x27)".toList

/-- File-name base of the counterexample page. -/
def ceBase : Str := "contact".toList

/-- C5 counterexample: a scanned block whose `pageSlug` raw value contains
`||`, yet the slug candidate is not the stripped right-hand operand: that
operand strips to the empty string, the property is skipped, and the
candidate is the file-name base instead. -/
theorem claim_c5_counterexample :
    getValue (dictOf (findProps ceBlock)) pageSlugKey = some ceRaw ∧
      containsSub ddLit ceRaw = true ∧
      pyStrip (stripQuotesParens (splitSecond ceRaw)) = [] ∧
      slugCandidate (dictOf (findProps ceBlock)) ceBase = ceBase ∧
      ceBase ≠ pyStrip (stripQuotesParens (splitSecond ceRaw)) := by
  refine ⟨by decide, by decide, by decide, by decide, by decide⟩

/-- C5 (amended): when the first property present in priority order
(`pageSlug`, then `currentPage`) has a raw value containing one `||` whose
right-hand operand, stripped of quotes and parentheses and trimmed, is
nonempty, that stripped operand is the slug candidate. -/
theorem claim_c5_fallback_amended (props : List (Str × Str)) (base v b : Str)
    (hkey : getValue props pageSlugKey = some v ∨
      (getValue props pageSlugKey = none ∧ getValue props currentPageKey = some v))
    (hsplit : splitOnFirst ddLit v = some b)
    (hone : containsSub ddLit b = false)
    (hne : pyStrip (stripQuotesParens b) ≠ []) :
    slugCandidate props base = pyStrip (stripQuotesParens b) := by
  have hcv : containsSub ddLit v = true := by
    unfold containsSub
    rw [hsplit]
    rfl
  have hclean : cleanValue v = pyStrip (stripQuotesParens b) := by
    unfold cleanValue splitSecond
    rw [if_pos hcv, hsplit]
    simp only [takeUntilFirst_eq_none hone]
  have hemp : (pyStrip (stripQuotesParens b)).isEmpty = false := by
    simpa [List.isEmpty_iff] using hne
  rcases hkey with h | ⟨h1, h2⟩
  · unfold slugCandidate
    rw [h]
    simp only [hclean, hemp]
    rfl
  · unfold slugCandidate
    rw [h1, h2]
    simp only [hclean, hemp]
    rfl

/-- Property block of the C5 witness, the fallback-operator scenario of the
specification. -/
def wBlock : Str := "pageSlug: (someVar || \x27fallback-slug\x27)".toList

/-- Raw `pageSlug` value extracted from `wBlock`. -/
def wRaw : Str := "(someVar || \x27fallback-slug\x27)".toList

/-- Right-hand operand of the `||` in `wRaw`. -/
def wRhs : Str := " \x27fallback-slug\x27)".toList

/-- Witness for the amended C5 on the specification's own example:
`pageSlug: (someVar || \x27fallback-slug\x27)` resolves to `fallback-slug`. -/
theorem claim_c5_fallback_amended_witness :
    slugCandidate (dictOf (findProps wBlock)) "x".toList = "fallback-slug".toList :=
  (claim_c5_fallback_amended (dictOf (findProps wBlock)) "x".toList wRaw wRhs
    (Or.inl (by decide)) (by decide) (by decide) (by decide)).trans (by decide)

/-! ### First include wins (claim C10) -/

theorem containsSub_of_at (pat : Str) : ∀ (n : Nat) (l : Str),
    (l.drop n).take pat.length = pat → containsSub pat l = true := by
  intro n
  induction n with
  | zero =>
    intro l h
    rw [List.drop_zero] at h
    cases l with
    | nil =>
      simp only [List.take_nil] at h
      unfold containsSub splitOnFirst
      rw [if_pos (by simp [← h])]
      rfl
    | cons c rest =>
      unfold containsSub splitOnFirst
      rw [if_pos (by simp [h])]
      rfl
  | succ m ih =>
    intro l h
    cases l with
    | nil =>
      simp only [List.drop_nil, List.take_nil] at h
      unfold containsSub splitOnFirst
      rw [if_pos (by simp [← h])]
      rfl
    | cons c rest =>
      rw [List.drop_succ_cons] at h
      have hr := ih rest h
      unfold containsSub splitOnFirst
      by_cases hc : ((c :: rest).take pat.length == pat) = true
      · rw [if_pos hc]
        rfl
      · rw [if_neg hc]
        exact hr

theorem containsSub_tail {pat : Str} {c : Char} {rest : Str}
    (h : containsSub pat (c :: rest) = false) : containsSub pat rest = false := by
  unfold containsSub splitOnFirst at h
  by_cases hc : ((c :: rest).take pat.length == pat) = true
  · rw [if_pos hc] at h
    simp at h
  · rwa [if_neg hc] at h

theorem matchIncludeAt_none_of_no_prefix {l : Str}
    (h : ¬(l.take incLit.length = incLit)) : matchIncludeAt l = none := by
  unfold matchIncludeAt expectLit
  rw [if_neg (by simpa using h)]
  rfl

theorem findInclude_cons (c : Char) (t : Str) :
    findInclude (c :: t) =
      match matchIncludeAt (c :: t) with
      | some block => some block
      | none => findInclude t := rfl

theorem findInclude_of_matchAt {l b : Str} (h : matchIncludeAt l = some b) :
    findInclude l = some b := by
  cases l with
  | nil =>
    have h0 : matchIncludeAt [] = none := rfl
    rw [h0] at h
    cases h
  | cons c t =>
    rw [findInclude_cons, h]

theorem findInclude_skip (text : Str) : ∀ pre : Str,
    (∀ n, n < pre.length → matchIncludeAt ((pre ++ text).drop n) = none) →
    findInclude (pre ++ text) = findInclude text := by
  intro pre
  induction pre with
  | nil => intro _; rfl
  | cons c pre' ih =>
    intro h
    have h0 : matchIncludeAt (c :: (pre' ++ text)) = none := by
      have := h 0 (by simp)
      simpa using this
    show findInclude (c :: (pre' ++ text)) = findInclude text
    rw [findInclude_cons, h0]
    exact ih (fun n hn => by
      have := h (n + 1) (by simpa using Nat.succ_lt_succ hn)
      simpa using this)

/-- A canonical include call around a property block: `include('layout',{`,
the block, then `})`. -/
def incCall (b : Str) : Str :=
  incLit ++ [sq] ++ layoutLit ++ [sq, Char.ofNat 44, lbr] ++ b ++ closeParenLit

theorem closeParen_chars : closeParenLit = [Char.ofNat 125, Char.ofNat 41] := by decide

theorem take_two_cons_cons (a b : Char) (t : Str) : (a :: b :: t).take 2 = [a, b] := rfl

theorem takeUntilFirst_close (b : Str) (z : Str)
    (hb : containsSub closeParenLit b = false) :
    takeUntilFirst closeParenLit (b ++ (closeParenLit ++ z)) = some b := by
  induction b with
  | nil => rfl
  | cons c b' ih =>
    have hb' : containsSub closeParenLit b' = false := containsSub_tail hb
    have hcond :
        ¬(((c :: (b' ++ (closeParenLit ++ z))).take closeParenLit.length ==
          closeParenLit) = true) := by
      intro hc
      rw [beq_iff_eq] at hc
      have hlen : closeParenLit.length = 2 := rfl
      cases b' with
      | nil =>
        rw [hlen] at hc
        simp only [List.nil_append] at hc
        rw [closeParen_chars] at hc
        simp only [List.cons_append] at hc
        rw [take_two_cons_cons, List.cons.injEq, List.cons.injEq] at hc
        exact absurd hc.2.1 (by decide)
      | cons d b'' =>
        rw [hlen] at hc
        simp only [List.cons_append] at hc
        rw [take_two_cons_cons, closeParen_chars, List.cons.injEq, List.cons.injEq] at hc
        have hocc : containsSub closeParenLit (c :: d :: b'') = true := by
          refine containsSub_of_at closeParenLit 0 _ ?_
          rw [List.drop_zero, hlen, take_two_cons_cons, closeParen_chars, hc.1, hc.2.1]
        rw [hocc] at hb
        exact absurd hb (by decide)
    show takeUntilFirst closeParenLit (c :: (b' ++ (closeParenLit ++ z))) = some (c :: b')
    unfold takeUntilFirst
    rw [if_neg hcond, ih hb']
    rfl

theorem matchIncludeAt_incCall (b rest : Str) :
    matchIncludeAt (incCall b ++ rest) =
      takeUntilFirst closeParenLit (b ++ (closeParenLit ++ rest)) := by
  unfold incCall
  simp only [List.append_assoc, List.cons_append, List.nil_append]
  rfl

theorem take_of_append_prefix (A B : Str) (n k : Nat) (h : n + k ≤ A.length) :
    ((A ++ B).drop n).take k = (A.drop n).take k := by
  rw [List.drop_append_of_le_length (by omega)]
  exact List.take_append_of_le_length (by rw [List.length_drop]; omega)

theorem take_dropLast (A : Str) (n k : Nat) (h : n + k ≤ A.length - 1) :
    ((A.dropLast).drop n).take k = (A.drop n).take k := by
  rw [List.dropLast_eq_take, List.drop_take, List.take_take,
    Nat.min_eq_left (by omega)]

theorem matchIncludeAt_fail_in_pre (pre b rest : Str)
    (hpre : containsSub incLit ((pre ++ incLit).dropLast) = false) :
    ∀ n, n < pre.length → matchIncludeAt ((pre ++ (incCall b ++ rest)).drop n) = none := by
  intro n hn
  apply matchIncludeAt_none_of_no_prefix
  intro hc
  have hlen8 : incLit.length = 8 := rfl
  have e : pre ++ (incCall b ++ rest) =
      (pre ++ incLit) ++
        (([sq] ++ layoutLit ++ [sq, Char.ofNat 44, lbr] ++ b ++ closeParenLit) ++ rest) := by
    simp [incCall, List.append_assoc]
  rw [e, take_of_append_prefix _ _ n incLit.length
    (by rw [List.length_append, hlen8]; omega)] at hc
  have hd : (((pre ++ incLit).dropLast).drop n).take incLit.length = incLit := by
    rw [take_dropLast _ n incLit.length (by rw [List.length_append, hlen8]; omega)]
    exact hc
  have hocc := containsSub_of_at incLit n _ hd
  rw [hocc] at hpre
  exact absurd hpre (by decide)

/-- C10: when a file's text is a prefix with no include-call start, followed
by a complete layout-include invocation around a block `b`, followed by
anything at all (in particular further invocations), the scanner produces
exactly one record, derived solely from `b`: the text after the first
invocation cannot change the record. -/
theorem claim_c10_first_include (path fname pre b rest : Str)
    (hpre : containsSub incLit ((pre ++ incLit).dropLast) = false)
    (hb : containsSub closeParenLit b = false) :
    pageRecordOfFile path fname (pre ++ (incCall b ++ rest)) =
      some { path := path
             slug := slugify (slugCandidate (dictOf (findProps b)) (splitextBase fname))
             has_inline := containsSub descLit b } := by
  have hfind : findInclude (pre ++ (incCall b ++ rest)) = some b := by
    rw [findInclude_skip (incCall b ++ rest) pre (matchIncludeAt_fail_in_pre pre b rest hpre)]
    apply findInclude_of_matchAt
    rw [matchIncludeAt_incCall]
    exact takeUntilFirst_close b rest hb
  unfold pageRecordOfFile
  rw [hfind]

/-- Prefix text of the C10 witness file. -/
def wPre : Str := "<div>".toList

/-- Block of the first invocation in the C10 witness file. -/
def wFirstBlock : Str := "pageSlug: \x27about\x27".toList

/-- Tail of the C10 witness file, containing a second, ignored invocation. -/
def wRest : Str :=
  " tail include(\x27layout\x27,\x7bcurrentPage: \x27other\x27, pageDescription: \x27x\x27\x7d)".toList

/-- Witness for C10: the record of the two-invocation witness file comes from
the first invocation only (slug `about`, no inline description), although the
second invocation has a different slug and an inline description. -/
theorem claim_c10_first_include_witness :
    pageRecordOfFile "p".toList "about.html".toList (wPre ++ (incCall wFirstBlock ++ wRest)) =
      some { path := "p".toList, slug := "about".toList, has_inline := false } := by
  rw [claim_c10_first_include "p".toList "about.html".toList wPre wFirstBlock wRest
    (by decide) (by decide)]
  decide

end VerifyPages
